import Mathlib

/-!
Shallow embedding of the 2048 rules engine in `2048_tk.py`.

A board is a list of rows of natural numbers (`0` = empty cell), mirroring the
Python tuple-of-tuples representation. All board transformations are embedded
as executable Lean functions, translated directly from the source. The two
random draws that the Python code performs per tile spawn are made explicit
arguments: `g : Nat` models the draw of the *global* `random.choice` used to
pick the spawn position (the hidden global state of the `random` module), and
`u : Rat` models the value returned by the injected generator `rnd()`
(a float in `[0,1)`, compared against `0.1`, modelled exactly as `1/10`).
-/

set_option autoImplicit false

namespace Game2048

abbrev Board := List (List Nat)

/-- Cell access `board[r][c]`, total with default 0 (the Python code only
indexes in range on square boards). -/
def get (b : Board) (r c : Nat) : Nat := (b.getD r []).getD c 0

/-- Functional update `lst[r][c] = v` from `add_random_tile`. -/
def setCell (b : Board) (r c v : Nat) : Board := b.set r ((b.getD r []).set c v)

/-- Source `empty_board`: size×size board of zeros. -/
def empty_board (size : Nat) : Board := List.replicate size (List.replicate size 0)

/-- Source `iter_positions`: all (r, c) with r, c < n in row-major order. -/
def iter_positions (b : Board) : List (Nat × Nat) :=
  (List.range b.length).flatMap fun r => (List.range b.length).map fun c => (r, c)

/-- Source `get_empty_positions`: positions whose cell is 0. -/
def get_empty_positions (b : Board) : List (Nat × Nat) :=
  (iter_positions b).filter fun p => get b p.1 p.2 == 0

/-- The spawned tile value `4 if rnd() < 0.1 else 2`, from the injected draw. -/
def spawn_value (u : Rat) : Nat := if u < 1 / 10 then 4 else 2

/-- Source `add_random_tile`. The position is drawn by the global
`random.choice(empties)` — modelled by the hidden-state argument `g` selecting
`empties[g % empties.length]` — and the value by the injected `rnd()` draw `u`:
`4` if `u < 0.1` else `2`. Returns the new board and the placement, `none`
when the board has no empty cell. -/
def add_random_tile (b : Board) (g : Nat) (u : Rat) : Board × Option (Nat × Nat × Nat) :=
  let empties := get_empty_positions b
  if empties.isEmpty then (b, none)
  else
    let p := empties.getD (g % empties.length) (0, 0)
    let value := spawn_value u
    (setCell b p.1 p.2 value, some (p.1, p.2, value))

/-- Compression of a row to a target length: the non-zero values in order,
padded on the right with zeros. `compress_row_left row` is this at
`n = row.length`, exactly the source's list comprehension plus zero padding. -/
def compressTo (n : Nat) (l : List Nat) : List Nat :=
  let nz := l.filter fun x => x != 0
  nz ++ List.replicate (n - nz.length) 0

/-- Source `compress_row_left`: slide non-zero tiles left without merging. -/
def compress_row_left (row : List Nat) : List Nat := compressTo row.length row

/-- The in-place merge loop of `merge_row_left` (lines 51–55), translated
structurally: at each position, if the cell is non-zero and equals its right
neighbour, the cell doubles (scoring the doubled value) and the neighbour
becomes 0; the loop then continues at the neighbour (which, being 0, cannot
merge), i.e. after the emitted `0` the scan resumes on the remaining tail. -/
def mergePass : List Nat → List Nat × Nat
  | [] => ([], 0)
  | [a] => ([a], 0)
  | a :: b :: rest =>
    if a ≠ 0 ∧ a = b then
      let p := mergePass rest
      (2 * a :: 0 :: p.1, 2 * a + p.2)
    else
      let p := mergePass (b :: rest)
      (a :: p.1, p.2)

/-- Source `merge_row_left`: compress, single merge pass, compress again;
returns the new row and the score gained. -/
def merge_row_left (row : List Nat) : List Nat × Nat :=
  let r := compress_row_left row
  let p := mergePass r
  (compress_row_left p.1, p.2)

/-- Source `move_left`: merge every row, `changed` iff some row differs from
its input, score is the sum of the per-row scores. -/
def move_left (b : Board) : Board × Bool × Nat :=
  let merged := b.map merge_row_left
  (merged.map Prod.fst,
   (b.zip (merged.map Prod.fst)).any fun p => p.1 != p.2,
   (merged.map Prod.snd).sum)

/-- Source `rotate_cw`: entry (r, c) of the result is `board[n-1-c][r]`. -/
def rotate_cw (b : Board) : Board :=
  let n := b.length
  (List.range n).map fun r => (List.range n).map fun c => get b (n - 1 - c) r

/-- Source `rotate_ccw`: entry (r, c) of the result is `board[c][n-1-r]`. -/
def rotate_ccw (b : Board) : Board :=
  let n := b.length
  (List.range n).map fun r => (List.range n).map fun c => get b c (n - 1 - r)

/-- Row-wise reversal used by `move_right`. -/
def revRows (b : Board) : Board := b.map List.reverse

/-- Source `move_right`: mirror, move left, mirror back. -/
def move_right (b : Board) : Board × Bool × Nat :=
  let m := move_left (revRows b)
  (revRows m.1, m.2.1, m.2.2)

/-- Source `move_up`: rotate clockwise, move left, rotate counterclockwise. -/
def move_up (b : Board) : Board × Bool × Nat :=
  let m := move_left (rotate_cw b)
  (rotate_ccw m.1, m.2.1, m.2.2)

/-- Source `move_down`: rotate counterclockwise, move left, rotate clockwise. -/
def move_down (b : Board) : Board × Bool × Nat :=
  let m := move_left (rotate_ccw b)
  (rotate_cw m.1, m.2.1, m.2.2)

/-- Source `any_moves_possible`: true if an empty cell exists, else true iff
two horizontally or vertically adjacent cells are equal. -/
def any_moves_possible (b : Board) : Bool :=
  if !(get_empty_positions b).isEmpty then true
  else
    let n := b.length
    ((List.range n).any fun r => (List.range (n - 1)).any fun c =>
      get b r c == get b r (c + 1)) ||
    ((List.range n).any fun c => (List.range (n - 1)).any fun r =>
      get b r c == get b (r + 1) c)

/-- Source `reached_goal`: true iff some cell is ≥ the goal. -/
def reached_goal (b : Board) (goal : Nat) : Bool :=
  (iter_positions b).any fun p => goal ≤ get b p.1 p.2

/-- Source `init_game`: empty board, then two spawned tiles, score 0. Each
spawn takes its pair of random draws explicitly (see module docstring). -/
def init_game (size : Nat) (g₁ g₂ : Nat) (u₁ u₂ : Rat) : Board × Nat :=
  let board := empty_board size
  let board := (add_random_tile board g₁ u₁).1
  let board := (add_random_tile board g₂ u₂).1
  (board, 0)

/-- Direction enumeration of `apply_move`. -/
inductive Dir | left | right | up | down
deriving DecidableEq

/-- Source `apply_move`: dispatch to the directional move. -/
def apply_move (b : Board) : Dir → Board × Bool × Nat
  | .left => move_left b
  | .right => move_right b
  | .up => move_up b
  | .down => move_down b

/-- Derived game status (spec's `queryStatus`). -/
inductive Status | InProgress | Won | Lost
deriving DecidableEq

/-- The win/loss check of `GameUI.draw_board` (lines 204–207): win popup if
`reached_goal`, elif no moves possible the game-over popup, else nothing —
embedded as the derived status value. -/
def queryStatus (b : Board) (goal : Nat) : Status :=
  if reached_goal b goal then .Won
  else if !any_moves_possible b then .Lost
  else .InProgress

/-- The mutable session of `GameUI`: current board and cumulative score. -/
structure Session where
  board : Board
  score : Nat
deriving DecidableEq

/-- Source `GameUI.perform_move`: apply the move; if unchanged return the
session untouched, else add the gained score, spawn one random tile (draws
`g`, `u` as in `add_random_tile`) and store the new board. -/
def perform_move (s : Session) (d : Dir) (g : Nat) (u : Rat) : Session :=
  let m := apply_move s.board d
  if !m.2.1 then s
  else { board := (add_random_tile m.1 g u).1, score := s.score + m.2.2 }

/-- Well-formed board: square, every row as long as the list of rows. -/
def WF (b : Board) : Prop := ∀ row ∈ b, row.length = b.length

instance (b : Board) : Decidable (WF b) := List.decidableBAll _ b

/-- Total value on the board: sum of all cells. -/
def boardSum (b : Board) : Nat := (b.map List.sum).sum

/-- Board with a single (possibly non-zero) tile `v` at (r₀, c₀). -/
def singleBoard (n r₀ c₀ v : Nat) : Board :=
  (List.range n).map fun r => (List.range n).map fun c =>
    if r = r₀ ∧ c = c₀ then v else 0

/-- Modelled from the spec: the single-pass merge rule stated in the spec's
words — scan the compressed row left to right, each adjacent equal non-zero
pair becomes one doubled tile scored at its post-merge value, and a tile
produced by a merge is skipped (never merged again in the same pass). -/
def mergePairs : List Nat → List Nat × Nat
  | [] => ([], 0)
  | [a] => ([a], 0)
  | a :: b :: rest =>
    if a = b ∧ a ≠ 0 then
      let p := mergePairs rest
      (2 * a :: p.1, 2 * a + p.2)
    else
      let p := mergePairs (b :: rest)
      (a :: p.1, p.2)

/-- Modelled from the spec: `mergeLeft` as the spec describes it — compress,
single-pass pair merging, compress again to the row's length; the score is
the sum of post-merge values of the merges performed. -/
def mergeLeftSpec (row : List Nat) : List Nat × Nat :=
  let q := mergePairs (compress_row_left row)
  (compressTo row.length q.1, q.2)

/-! Basic lemmas about the row primitives. -/

theorem mergePass_length : ∀ l : List Nat, (mergePass l).1.length = l.length
  | [] => rfl
  | [_] => rfl
  | a :: b :: rest => by
    simp only [mergePass]
    by_cases h : a ≠ 0 ∧ a = b
    · rw [if_pos h]
      simp [mergePass_length rest]
    · rw [if_neg h]
      simp [mergePass_length (b :: rest)]

theorem mergePass_score_zero : ∀ l : List Nat, (mergePass l).2 = 0 → (mergePass l).1 = l
  | [] => fun _ => rfl
  | [_] => fun _ => rfl
  | a :: b :: rest => fun hs => by
    simp only [mergePass] at hs ⊢
    by_cases h : a ≠ 0 ∧ a = b
    · rw [if_pos h] at hs
      exfalso
      simp at hs
      have := h.1
      omega
    · rw [if_neg h] at hs ⊢
      simp at hs ⊢
      exact mergePass_score_zero (b :: rest) hs

theorem filter_replicate_zero (k : Nat) :
    (List.replicate k 0).filter (fun x => x != 0) = ([] : List Nat) := by
  induction k with
  | zero => rfl
  | succ k ih => simp [List.replicate_succ, List.filter_cons, ih]

theorem compress_row_left_length (row : List Nat) :
    (compress_row_left row).length = row.length := by
  have : (row.filter fun x => x != 0).length ≤ row.length := List.length_filter_le _ _
  simp [compress_row_left, compressTo]
  omega

theorem compressTo_filter (n : Nat) (l : List Nat) :
    (compressTo n l).filter (fun x => x != 0) = l.filter (fun x => x != 0) := by
  simp [compressTo, List.filter_append, filter_replicate_zero, List.filter_filter]

theorem compressTo_eq_of_filter (n : Nat) {x y : List Nat}
    (h : x.filter (fun a => a != 0) = y.filter (fun a => a != 0)) :
    compressTo n x = compressTo n y := by
  simp [compressTo, h]

theorem compress_row_left_idem (l : List Nat) :
    compress_row_left (compress_row_left l) = compress_row_left l := by
  show compressTo (compress_row_left l).length (compress_row_left l) = compress_row_left l
  rw [compress_row_left_length]
  exact compressTo_eq_of_filter l.length (compressTo_filter _ _)

theorem mergePass_filter_score : ∀ l : List Nat,
    (mergePass l).1.filter (fun x => x != 0) = (mergePairs l).1.filter (fun x => x != 0)
      ∧ (mergePass l).2 = (mergePairs l).2
  | [] => ⟨rfl, rfl⟩
  | [_] => ⟨rfl, rfl⟩
  | a :: b :: rest => by
    by_cases h : a = b ∧ a ≠ 0
    · have ih := mergePass_filter_score rest
      have h' : a ≠ 0 ∧ a = b := ⟨h.2, h.1⟩
      have ha : 2 * a ≠ 0 := by
        have := h.2
        omega
      refine ⟨?_, ?_⟩
      · simp only [mergePass, mergePairs]
        rw [if_pos h', if_pos h]
        simp [List.filter_cons, ha, ih.1]
      · simp only [mergePass, mergePairs]
        rw [if_pos h', if_pos h]
        simp [ih.2]
    · have h' : ¬(a ≠ 0 ∧ a = b) := fun hc => h ⟨hc.2, hc.1⟩
      have ih := mergePass_filter_score (b :: rest)
      refine ⟨?_, ?_⟩
      · simp only [mergePass, mergePairs]
        rw [if_neg h', if_neg h]
        simp [List.filter_cons, ih.1]
      · simp only [mergePass, mergePairs]
        rw [if_neg h', if_neg h]
        simp [ih.2]

/-- C1: `merge_row_left` first compresses the row, then performs the single
left-to-right merge pass in which each adjacent equal non-zero pair merges
exactly once (a tile produced by a merge is never merged again in the pass),
then compresses again, and the returned score is the sum of the post-merge
values of the merges performed — i.e. it coincides with the spec-level
description `mergeLeftSpec`. -/
theorem compress_row_left_eq_compressTo (l : List Nat) :
    compress_row_left l = compressTo l.length l := rfl

theorem merge_row_left_eq_spec (row : List Nat) : merge_row_left row = mergeLeftSpec row := by
  have hlen : (mergePass (compress_row_left row)).1.length = row.length := by
    rw [mergePass_length, compress_row_left_length]
  have hfs := mergePass_filter_score (compress_row_left row)
  refine Prod.ext ?_ hfs.2
  show compress_row_left (mergePass (compress_row_left row)).1
      = compressTo row.length (mergePairs (compress_row_left row)).1
  rw [compress_row_left_eq_compressTo, hlen]
  exact compressTo_eq_of_filter _ hfs.1

/-! Infrastructure: maps, zips, boards, rotations. -/

theorem zip_map_any {α : Type} (l : List α) (f : α → α) (p : α → α → Bool) :
    ((l.zip (l.map f)).any fun q => p q.1 q.2) = l.any fun a => p a (f a) := by
  induction l with
  | nil => rfl
  | cons a l ih => simp [ih]

theorem map_fixed_iff {α : Type} (f : α → α) (l : List α) :
    l.map f = l ↔ ∀ a ∈ l, f a = a := by
  induction l with
  | nil => simp
  | cons a l ih => simp [ih]

theorem any_ne_iff (b : Board) (f : List Nat → List Nat) :
    (b.any fun r => r != f r) = true ↔ b.map f ≠ b := by
  rw [List.any_eq_true, Ne, map_fixed_iff]
  constructor
  · rintro ⟨r, hr, hne⟩ hall
    rw [bne_iff_ne] at hne
    exact hne (hall r hr).symm
  · intro h
    by_contra hc
    apply h
    intro a ha
    by_contra hfa
    apply hc
    exact ⟨a, ha, bne_iff_ne.mpr fun he => hfa he.symm⟩

theorem move_left_eq (b : Board) :
    move_left b = (b.map fun r => (merge_row_left r).1,
      (b.any fun r => r != (merge_row_left r).1),
      (b.map fun r => (merge_row_left r).2).sum) := by
  simp only [move_left, List.map_map]
  rw [zip_map_any b (Prod.fst ∘ merge_row_left) (fun x y => x != y)]
  rfl

theorem move_left_changed_iff (b : Board) :
    (move_left b).2.1 = true ↔ (move_left b).1 ≠ b := by
  rw [move_left_eq]
  exact any_ne_iff b _

theorem merge_row_left_length (row : List Nat) :
    (merge_row_left row).1.length = row.length := by
  show (compress_row_left (mergePass (compress_row_left row)).1).length = row.length
  rw [compress_row_left_length, mergePass_length, compress_row_left_length]

theorem move_left_fst_length (b : Board) : (move_left b).1.length = b.length := by
  simp [move_left]

theorem revRows_revRows (b : Board) : revRows (revRows b) = b := by
  simp [revRows, List.map_map, Function.comp]

theorem getD_map_range {α : Type} (n r : Nat) (d : α) (f : Nat → α) (h : r < n) :
    ((List.range n).map f).getD r d = f r := by
  have hl : r < ((List.range n).map f).length := by simpa using h
  rw [List.getD_eq_getElem _ _ hl]
  simp

theorem get_range_map (n : Nat) (f : Nat → Nat → Nat) {r c : Nat} (hr : r < n) (hc : c < n) :
    get ((List.range n).map fun i => (List.range n).map fun j => f i j) r c = f r c := by
  unfold get
  rw [getD_map_range _ _ _ _ hr, getD_map_range _ _ _ _ hc]

theorem rotate_cw_length (b : Board) : (rotate_cw b).length = b.length := by
  simp [rotate_cw]

theorem rotate_ccw_length (b : Board) : (rotate_ccw b).length = b.length := by
  simp [rotate_ccw]

theorem WF_rotate_cw (b : Board) : WF (rotate_cw b) := by
  intro row hrow
  simp only [rotate_cw, List.mem_map, List.mem_range] at hrow
  obtain ⟨i, _, rfl⟩ := hrow
  simp [rotate_cw]

theorem WF_rotate_ccw (b : Board) : WF (rotate_ccw b) := by
  intro row hrow
  simp only [rotate_ccw, List.mem_map, List.mem_range] at hrow
  obtain ⟨i, _, rfl⟩ := hrow
  simp [rotate_ccw]

theorem WF_move_left {b : Board} (h : WF b) : WF (move_left b).1 := by
  intro row hrow
  rw [move_left_eq] at hrow
  obtain ⟨r, hr, rfl⟩ := List.mem_map.mp hrow
  rw [move_left_fst_length, merge_row_left_length]
  exact h r hr

theorem get_rotate_cw (b : Board) {r c : Nat} (hr : r < b.length) (hc : c < b.length) :
    get (rotate_cw b) r c = get b (b.length - 1 - c) r :=
  get_range_map b.length (fun i j => get b (b.length - 1 - j) i) hr hc

theorem get_rotate_ccw (b : Board) {r c : Nat} (hr : r < b.length) (hc : c < b.length) :
    get (rotate_ccw b) r c = get b c (b.length - 1 - r) :=
  get_range_map b.length (fun i j => get b j (b.length - 1 - i)) hr hc

theorem board_ext {b₁ b₂ : Board} (h₁ : WF b₁) (h₂ : WF b₂) (hlen : b₁.length = b₂.length)
    (hget : ∀ r < b₁.length, ∀ c < b₁.length, get b₁ r c = get b₂ r c) : b₁ = b₂ := by
  apply List.ext_getElem hlen
  intro r hr₁ hr₂
  have hw₁ : b₁[r].length = b₁.length := h₁ _ (List.getElem_mem hr₁)
  have hw₂ : b₂[r].length = b₂.length := h₂ _ (List.getElem_mem hr₂)
  apply List.ext_getElem
  · rw [hw₁, hw₂, hlen]
  · intro c hc₁ hc₂
    have hcb : c < b₁.length := by rwa [hw₁] at hc₁
    have hg := hget r hr₁ c hcb
    unfold get at hg
    rw [List.getD_eq_getElem _ _ hr₁, List.getD_eq_getElem _ _ hr₂] at hg
    rw [List.getD_eq_getElem _ _ hc₁, List.getD_eq_getElem _ _ hc₂] at hg
    exact hg

theorem rotate_ccw_rotate_cw (b : Board) (hwf : WF b) : rotate_ccw (rotate_cw b) = b := by
  have hn : (rotate_ccw (rotate_cw b)).length = b.length := by
    rw [rotate_ccw_length, rotate_cw_length]
  apply board_ext (WF_rotate_ccw _) hwf hn
  intro r hr c hc
  rw [hn] at hr hc
  have hr' : r < (rotate_cw b).length := by rwa [rotate_cw_length]
  have hc' : c < (rotate_cw b).length := by rwa [rotate_cw_length]
  rw [get_rotate_ccw _ hr' hc', rotate_cw_length]
  have h1 : b.length - 1 - r < b.length := by omega
  rw [get_rotate_cw _ hc h1]
  congr 1
  omega

theorem rotate_cw_rotate_ccw (b : Board) (hwf : WF b) : rotate_cw (rotate_ccw b) = b := by
  have hn : (rotate_cw (rotate_ccw b)).length = b.length := by
    rw [rotate_cw_length, rotate_ccw_length]
  apply board_ext (WF_rotate_cw _) hwf hn
  intro r hr c hc
  rw [hn] at hr hc
  have hr' : r < (rotate_ccw b).length := by rwa [rotate_ccw_length]
  have hc' : c < (rotate_ccw b).length := by rwa [rotate_ccw_length]
  rw [get_rotate_cw _ hr' hc', rotate_ccw_length]
  have h1 : b.length - 1 - c < b.length := by omega
  rw [get_rotate_ccw _ h1 hr]
  congr 1
  omega

/-- C3: for every well-formed board and every direction, the changed flag of
the directional move is true iff the resulting board differs from the input
board in at least one cell (for right, up and down this is inherited through
the mirror or rotation round-trip). -/
theorem changed_iff_board_ne (b : Board) (hwf : WF b) (d : Dir) :
    (apply_move b d).2.1 = true ↔ (apply_move b d).1 ≠ b := by
  cases d
  case left => exact move_left_changed_iff b
  case right =>
    show (move_right b).2.1 = true ↔ (move_right b).1 ≠ b
    simp only [move_right]
    rw [move_left_changed_iff]
    constructor
    · intro h hc
      apply h
      have := congrArg revRows hc
      rwa [revRows_revRows] at this
    · intro h hc
      apply h
      rw [hc, revRows_revRows]
  case up =>
    show (move_up b).2.1 = true ↔ (move_up b).1 ≠ b
    simp only [move_up]
    rw [move_left_changed_iff]
    have hM : WF (move_left (rotate_cw b)).1 := WF_move_left (WF_rotate_cw b)
    constructor
    · intro h hc
      apply h
      have := congrArg rotate_cw hc
      rwa [rotate_cw_rotate_ccw _ hM] at this
    · intro h hc
      apply h
      rw [hc, rotate_ccw_rotate_cw _ hwf]
  case down =>
    show (move_down b).2.1 = true ↔ (move_down b).1 ≠ b
    simp only [move_down]
    rw [move_left_changed_iff]
    have hM : WF (move_left (rotate_ccw b)).1 := WF_move_left (WF_rotate_ccw b)
    constructor
    · intro h hc
      apply h
      have := congrArg rotate_ccw hc
      rwa [rotate_ccw_rotate_cw _ hM] at this
    · intro h hc
      apply h
      rw [hc, rotate_cw_rotate_ccw _ hwf]

/-- Witness for C3: on the board [[2,0],[0,0]] a left move changes nothing,
and indeed the flag is false iff the board is returned unchanged. -/
theorem changed_iff_board_ne_witness :
    WF [[2, 0], [0, 0]] ∧
      ((apply_move [[2, 0], [0, 0]] Dir.left).2.1 = true ↔
        (apply_move [[2, 0], [0, 0]] Dir.left).1 ≠ [[2, 0], [0, 0]]) :=
  ⟨by decide, changed_iff_board_ne [[2, 0], [0, 0]] (by decide) Dir.left⟩

theorem move_left_rows_compressed (b : Board) :
    ∀ row ∈ (move_left b).1, compress_row_left row = row := by
  intro row hrow
  rw [move_left_eq] at hrow
  obtain ⟨r, _, rfl⟩ := List.mem_map.mp hrow
  show compress_row_left (compress_row_left (mergePass (compress_row_left r)).1)
      = compress_row_left (mergePass (compress_row_left r)).1
  exact compress_row_left_idem _

theorem move_left_changed_false (b : Board) (hcomp : ∀ row ∈ b, compress_row_left row = row)
    (hs : (move_left b).2.2 = 0) : (move_left b).2.1 = false := by
  rw [move_left_eq] at hs ⊢
  simp only at hs ⊢
  have hrow : ∀ r ∈ b, (merge_row_left r).1 = r := by
    intro r hr
    have hscore : (merge_row_left r).2 = 0 :=
      List.sum_eq_zero_iff.mp hs _ (List.mem_map.mpr ⟨r, hr, rfl⟩)
    have h1 : (mergePass (compress_row_left r)).1 = compress_row_left r :=
      mergePass_score_zero _ hscore
    show compress_row_left (mergePass (compress_row_left r)).1 = r
    rw [h1, compress_row_left_idem, hcomp r hr]
  rw [Bool.eq_false_iff]
  intro hany
  obtain ⟨r, hr, hne⟩ := List.any_eq_true.mp hany
  rw [bne_iff_ne] at hne
  exact hne (hrow r hr).symm

/-- Counterexample to C2: on the board [[4,2,2],[0,0,0],[0,0,0]] a left move
produces [[4,4,0],...], and a second left move still reports changed = true
(the two 4s made adjacent by the first pass merge on the second), so a
directional move does not reach a fixed point within one application. -/
theorem double_move_not_fixed :
    (apply_move (apply_move [[4, 2, 2], [0, 0, 0], [0, 0, 0]] Dir.left).1 Dir.left).2.1
      = true := by decide

/-- C2 (amended): one application of a direction need not reach a fixed
point — the first pass can make equal tiles adjacent and the second
application then merges them. What does hold: the second application can
change the board only by merging; if the second application of the same
direction gains zero score, it returns changed = false. -/
theorem second_move_changed_requires_merge (b : Board) (d : Dir)
    (hs : (apply_move (apply_move b d).1 d).2.2 = 0) :
    (apply_move (apply_move b d).1 d).2.1 = false := by
  cases d
  case left =>
    exact move_left_changed_false _ (move_left_rows_compressed b) hs
  case right =>
    simp only [apply_move, move_right] at hs ⊢
    rw [revRows_revRows] at hs ⊢
    exact move_left_changed_false _ (move_left_rows_compressed _) hs
  case up =>
    have hM : WF (move_left (rotate_cw b)).1 := WF_move_left (WF_rotate_cw b)
    simp only [apply_move, move_up] at hs ⊢
    rw [rotate_cw_rotate_ccw _ hM] at hs ⊢
    exact move_left_changed_false _ (move_left_rows_compressed _) hs
  case down =>
    have hM : WF (move_left (rotate_ccw b)).1 := WF_move_left (WF_rotate_ccw b)
    simp only [apply_move, move_down] at hs ⊢
    rw [rotate_ccw_rotate_cw _ hM] at hs ⊢
    exact move_left_changed_false _ (move_left_rows_compressed _) hs

/-- Witness for the amended C2: moving left twice on [[2,0],[0,0]] gains no
score on the second application, which accordingly reports changed = false. -/
theorem second_move_changed_requires_merge_witness :
    (apply_move (apply_move [[2, 0], [0, 0]] Dir.left).1 Dir.left).2.2 = 0 ∧
      (apply_move (apply_move [[2, 0], [0, 0]] Dir.left).1 Dir.left).2.1 = false :=
  ⟨by decide, second_move_changed_requires_merge [[2, 0], [0, 0]] Dir.left (by decide)⟩

/-! Terminal-state detection and the controller layer. -/

theorem spawn_value_lt {u : Rat} (h : u < 1 / 10) : spawn_value u = 4 := if_pos h

theorem spawn_value_ge {u : Rat} (h : ¬u < 1 / 10) : spawn_value u = 2 := if_neg h

theorem mem_iter_positions (b : Board) (p : Nat × Nat) :
    p ∈ iter_positions b ↔ p.1 < b.length ∧ p.2 < b.length := by
  obtain ⟨r, c⟩ := p
  simp only [iter_positions, List.mem_flatMap, List.mem_map, List.mem_range]
  constructor
  · rintro ⟨a, ha, c', hc', he⟩
    injection he with h1 h2
    subst h1
    subst h2
    exact ⟨ha, hc'⟩
  · rintro ⟨hr, hc⟩
    exact ⟨r, hr, c, hc, rfl⟩

theorem mem_empty_positions (b : Board) (p : Nat × Nat) :
    p ∈ get_empty_positions b ↔
      p.1 < b.length ∧ p.2 < b.length ∧ get b p.1 p.2 = 0 := by
  unfold get_empty_positions
  rw [List.mem_filter, mem_iter_positions]
  simp [and_assoc]

/-- C4: `any_moves_possible` is true iff the board has an empty cell or two
horizontally or vertically adjacent equal non-zero cells; in particular any
board with an empty cell yields true. -/
theorem any_moves_possible_iff (b : Board) :
    any_moves_possible b = true ↔
      ((∃ r < b.length, ∃ c < b.length, get b r c = 0) ∨
       (∃ r < b.length, ∃ c, c + 1 < b.length ∧
          get b r c = get b r (c + 1) ∧ get b r c ≠ 0) ∨
       (∃ c < b.length, ∃ r, r + 1 < b.length ∧
          get b r c = get b (r + 1) c ∧ get b r c ≠ 0)) := by
  unfold any_moves_possible
  by_cases he : (get_empty_positions b).isEmpty = true
  · rw [List.isEmpty_iff] at he
    have hnozero : ∀ r < b.length, ∀ c < b.length, get b r c ≠ 0 := by
      intro r hr c hc h0
      have hmem : (r, c) ∈ get_empty_positions b :=
        (mem_empty_positions b (r, c)).mpr ⟨hr, hc, h0⟩
      rw [he] at hmem
      exact absurd hmem (List.not_mem_nil _)
    have he' : (get_empty_positions b).isEmpty = true := by rw [he]; rfl
    simp only [he', Bool.not_true, Bool.false_eq_true, if_false]
    constructor
    · intro hor
      rw [Bool.or_eq_true] at hor
      cases hor with
      | inl hh =>
        obtain ⟨r, hrm, hrest⟩ := List.any_eq_true.mp hh
        obtain ⟨c, hcm, heq⟩ := List.any_eq_true.mp hrest
        rw [List.mem_range] at hrm hcm
        rw [beq_iff_eq] at heq
        have hc1 : c + 1 < b.length := by omega
        right; left
        exact ⟨r, hrm, c, hc1, heq, hnozero r hrm c (by omega)⟩
      | inr hv =>
        obtain ⟨c, hcm, hrest⟩ := List.any_eq_true.mp hv
        obtain ⟨r, hrm, heq⟩ := List.any_eq_true.mp hrest
        rw [List.mem_range] at hrm hcm
        rw [beq_iff_eq] at heq
        have hr1 : r + 1 < b.length := by omega
        right; right
        exact ⟨c, hcm, r, hr1, heq, hnozero r (by omega) c hcm⟩
    · rintro (⟨r, hr, c, hc, h0⟩ | ⟨r, hr, c, hc1, heq, _⟩ | ⟨c, hc, r, hr1, heq, _⟩)
      · exact absurd h0 (hnozero r hr c hc)
      · rw [Bool.or_eq_true]
        left
        rw [List.any_eq_true]
        exact ⟨r, List.mem_range.mpr hr,
          List.any_eq_true.mpr ⟨c, List.mem_range.mpr (by omega), beq_iff_eq.mpr heq⟩⟩
      · rw [Bool.or_eq_true]
        right
        rw [List.any_eq_true]
        exact ⟨c, List.mem_range.mpr hc,
          List.any_eq_true.mpr ⟨r, List.mem_range.mpr (by omega), beq_iff_eq.mpr heq⟩⟩
  · have he' : (get_empty_positions b).isEmpty = false := by
      cases h : (get_empty_positions b).isEmpty
      · rfl
      · exact absurd h he
    simp only [he', Bool.not_false, if_true, true_iff]
    left
    have hne : get_empty_positions b ≠ [] := by
      intro h0
      apply he
      rw [h0]
      rfl
    obtain ⟨p, hp⟩ := List.exists_mem_of_ne_nil _ hne
    obtain ⟨h1, h2, h3⟩ := (mem_empty_positions b p).mp hp
    exact ⟨p.1, h1, p.2, h2, h3⟩

/-- C5: the derived status of a session is Won iff some cell reached the
goal; Lost iff the goal is not reached and no move is possible; InProgress
otherwise — the win check precedes the loss check, so a board that both
reaches the goal and has no moves left reports Won. -/
theorem queryStatus_cases (b : Board) (goal : Nat) :
    (queryStatus b goal = Status.Won ↔ reached_goal b goal = true) ∧
    (queryStatus b goal = Status.Lost ↔
      reached_goal b goal = false ∧ any_moves_possible b = false) ∧
    (queryStatus b goal = Status.InProgress ↔
      reached_goal b goal = false ∧ any_moves_possible b = true) := by
  unfold queryStatus
  by_cases h1 : reached_goal b goal = true
  · simp [h1]
  · have h1' : reached_goal b goal = false := Bool.eq_false_iff.mpr h1
    by_cases h2 : any_moves_possible b = true
    · simp [h1', h2]
    · have h2' : any_moves_possible b = false := Bool.eq_false_iff.mpr h2
      simp [h1', h2']

/-- C6 (code bug): the spawn position is drawn from the hidden global
`random.choice`, not from the injected `rnd` — with the same board and the
same injected draw `u = 1/2`, two different global-choice states (modelled
by `g = 0` and `g = 1`) place the new tile at different cells, so the spawn
is not a function of its explicit inputs. -/
theorem add_random_tile_global_choice_dependence :
    add_random_tile [[2, 0], [0, 2]] 0 (1 / 2) ≠ add_random_tile [[2, 0], [0, 2]] 1 (1 / 2) := by
  have h2 : spawn_value (1 / 2) = 2 := spawn_value_ge (by norm_num)
  simp only [add_random_tile, h2]
  decide

theorem add_random_tile_length (b : Board) (g : Nat) (u : Rat) :
    ((add_random_tile b g u).1).length = b.length := by
  unfold add_random_tile
  by_cases h : (get_empty_positions b).isEmpty = true
  · simp [h]
  · have h' : (get_empty_positions b).isEmpty = false := Bool.eq_false_iff.mpr h
    simp [h', setCell]

/-- Counterexample to C7: `init_game` performs no size validation — at size
1 (< 2) it allocates the 1×1 board, spawns one tile into the only cell and
silently skips the second spawn, returning a normal result instead of
failing with a configuration error. -/
theorem init_game_size_one_allocates : init_game 1 0 0 0 0 = ([[4]], 0) := by
  have h4 : spawn_value 0 = 4 := spawn_value_lt (by norm_num)
  simp only [init_game, add_random_tile, h4]
  decide

/-- C7 (amended): the core neither rejects nor clamps an undersized board:
for every requested size — including sizes below 2 — `init_game` allocates
and returns a board of exactly that size with score 0; substituting the
default size 4 happens only in the excluded entry point `main`. -/
theorem init_game_no_validation (size g₁ g₂ : Nat) (u₁ u₂ : Rat) :
    ((init_game size g₁ g₂ u₁ u₂).1).length = size ∧ (init_game size g₁ g₂ u₁ u₂).2 = 0 := by
  refine ⟨?_, rfl⟩
  show ((add_random_tile (add_random_tile (empty_board size) g₁ u₁).1 g₂ u₂).1).length = size
  rw [add_random_tile_length, add_random_tile_length]
  simp [empty_board]

/-- C8: when the requested move reports changed = false, `perform_move`
returns the session untouched — same board, same score, and no random tile
is spawned. -/
theorem perform_move_noop_of_unchanged (s : Session) (d : Dir) (g : Nat) (u : Rat)
    (h : (apply_move s.board d).2.1 = false) : perform_move s d g u = s := by
  unfold perform_move
  simp [h]

/-- Witness for C8: a left move on the already-left-packed board [[2,0],[0,0]]
changes nothing, and the session comes back unchanged. -/
theorem perform_move_noop_witness :
    (apply_move (Session.mk [[2, 0], [0, 0]] 5).board Dir.left).2.1 = false ∧
      perform_move (Session.mk [[2, 0], [0, 0]] 5) Dir.left 0 0 = Session.mk [[2, 0], [0, 0]] 5 :=
  ⟨by decide, perform_move_noop_of_unchanged _ Dir.left 0 0 (by decide)⟩

/-! Conservation of the total tile value under moves. -/

theorem merge_row_left_def (row : List Nat) :
    merge_row_left row = (compress_row_left (mergePass (compress_row_left row)).1,
      (mergePass (compress_row_left row)).2) := rfl

theorem mergePass_sum : ∀ l : List Nat, (mergePass l).1.sum = l.sum
  | [] => rfl
  | [_] => rfl
  | a :: b :: rest => by
    simp only [mergePass]
    by_cases h : a ≠ 0 ∧ a = b
    · rw [if_pos h]
      have hs := mergePass_sum rest
      have hab := h.2
      simp only [List.sum_cons]
      omega
    · rw [if_neg h]
      have hs := mergePass_sum (b :: rest)
      simp only [List.sum_cons] at hs ⊢
      omega

theorem filter_ne_zero_sum (l : List Nat) : (l.filter fun x => x != 0).sum = l.sum := by
  induction l with
  | nil => rfl
  | cons a l ih =>
    by_cases h : a = 0
    · subst h
      simp [List.filter_cons, ih]
    · simp [List.filter_cons, h, ih]

theorem compress_row_left_sum (l : List Nat) : (compress_row_left l).sum = l.sum := by
  unfold compress_row_left compressTo
  rw [List.sum_append]
  simp [filter_ne_zero_sum]

theorem merge_row_left_sum (row : List Nat) : (merge_row_left row).1.sum = row.sum := by
  show (compress_row_left (mergePass (compress_row_left row)).1).sum = row.sum
  rw [compress_row_left_sum, mergePass_sum, compress_row_left_sum]

theorem move_left_sum (b : Board) : boardSum (move_left b).1 = boardSum b := by
  rw [move_left_eq]
  unfold boardSum
  rw [List.map_map]
  refine congrArg List.sum (List.map_congr_left ?_)
  intro r _
  exact merge_row_left_sum r

theorem revRows_sum (b : Board) : boardSum (revRows b) = boardSum b := by
  unfold boardSum revRows
  rw [List.map_map]
  refine congrArg List.sum (List.map_congr_left ?_)
  intro r _
  exact List.sum_reverse r

theorem list_sum_map_getD {α : Type} (l : List α) (f : α → Nat) (d : α) :
    (l.map f).sum = Finset.sum (Finset.range l.length) (fun i => f (l.getD i d)) := by
  induction l with
  | nil => simp
  | cons a l ih =>
    rw [List.map_cons, List.sum_cons, List.length_cons, Finset.sum_range_succ']
    simp only [List.getD_cons_succ, List.getD_cons_zero]
    rw [ih]
    omega

theorem row_sum_getD (l : List Nat) :
    l.sum = Finset.sum (Finset.range l.length) (fun i => l.getD i 0) := by
  have h := list_sum_map_getD l id 0
  simpa using h

theorem boardSum_eq (b : Board) (hwf : WF b) :
    boardSum b = Finset.sum (Finset.range b.length) (fun r =>
      Finset.sum (Finset.range b.length) (fun c => get b r c)) := by
  unfold boardSum
  rw [list_sum_map_getD b List.sum []]
  apply Finset.sum_congr rfl
  intro r hrm
  rw [Finset.mem_range] at hrm
  rw [row_sum_getD]
  have hlen : (b.getD r []).length = b.length := by
    rw [List.getD_eq_getElem _ _ hrm]
    exact hwf _ (List.getElem_mem _)
  rw [hlen]
  rfl

theorem rotate_cw_sum (b : Board) (hwf : WF b) : boardSum (rotate_cw b) = boardSum b := by
  rw [boardSum_eq _ (WF_rotate_cw b), boardSum_eq _ hwf, rotate_cw_length]
  have hstep : (Finset.sum (Finset.range b.length) fun r =>
        Finset.sum (Finset.range b.length) fun c => get (rotate_cw b) r c)
      = Finset.sum (Finset.range b.length) fun r =>
        Finset.sum (Finset.range b.length) fun c => get b (b.length - 1 - c) r := by
    apply Finset.sum_congr rfl
    intro r hr
    apply Finset.sum_congr rfl
    intro c hc
    rw [Finset.mem_range] at hr hc
    exact get_rotate_cw b hr hc
  rw [hstep]
  have h1 : ∀ r, (Finset.sum (Finset.range b.length) fun c => get b (b.length - 1 - c) r)
      = Finset.sum (Finset.range b.length) fun c => get b c r := fun r =>
    Finset.sum_range_reflect (fun c => get b c r) b.length
  simp only [h1]
  exact Finset.sum_comm

theorem rotate_ccw_sum (b : Board) (hwf : WF b) : boardSum (rotate_ccw b) = boardSum b := by
  rw [boardSum_eq _ (WF_rotate_ccw b), boardSum_eq _ hwf, rotate_ccw_length]
  have hstep : (Finset.sum (Finset.range b.length) fun r =>
        Finset.sum (Finset.range b.length) fun c => get (rotate_ccw b) r c)
      = Finset.sum (Finset.range b.length) fun r =>
        Finset.sum (Finset.range b.length) fun c => get b c (b.length - 1 - r) := by
    apply Finset.sum_congr rfl
    intro r hr
    apply Finset.sum_congr rfl
    intro c hc
    rw [Finset.mem_range] at hr hc
    exact get_rotate_ccw b hr hc
  rw [hstep]
  rw [Finset.sum_range_reflect (fun r => Finset.sum (Finset.range b.length)
    fun c => get b c r) b.length]
  exact Finset.sum_comm

/-- C10: every directional move conserves the total of all cell values —
compression permutes tiles and each merge replaces two equal tiles by their
sum — so only tile spawning ever changes the board total. -/
theorem apply_move_conserves_sum (b : Board) (hwf : WF b) (d : Dir) :
    boardSum (apply_move b d).1 = boardSum b := by
  cases d
  case left => exact move_left_sum b
  case right =>
    show boardSum (revRows (move_left (revRows b)).1) = boardSum b
    rw [revRows_sum, move_left_sum, revRows_sum]
  case up =>
    show boardSum (rotate_ccw (move_left (rotate_cw b)).1) = boardSum b
    rw [rotate_ccw_sum _ (WF_move_left (WF_rotate_cw b)), move_left_sum, rotate_cw_sum _ hwf]
  case down =>
    show boardSum (rotate_cw (move_left (rotate_ccw b)).1) = boardSum b
    rw [rotate_cw_sum _ (WF_move_left (WF_rotate_ccw b)), move_left_sum, rotate_ccw_sum _ hwf]

/-- Witness for C10: a merging left move on [[2,2],[0,4]] keeps the board
total at 8. -/
theorem apply_move_conserves_sum_witness :
    WF [[2, 2], [0, 4]] ∧
      boardSum (apply_move [[2, 2], [0, 4]] Dir.left).1 = boardSum [[2, 2], [0, 4]] :=
  ⟨by decide, apply_move_conserves_sum [[2, 2], [0, 4]] (by decide) Dir.left⟩

/-! Trajectory of a single tile under the vertical moves. -/

theorem any_map_poly {α β : Type} (l : List α) (f : α → β) (p : β → Bool) :
    (l.map f).any p = l.any fun a => p (f a) := by
  induction l with
  | nil => rfl
  | cons a l ih => simp [ih]

theorem singleBoard_length (n r₀ c₀ v : Nat) : (singleBoard n r₀ c₀ v).length = n := by
  simp [singleBoard]

theorem WF_singleBoard (n r₀ c₀ v : Nat) : WF (singleBoard n r₀ c₀ v) := by
  intro row hrow
  simp only [singleBoard, List.mem_map, List.mem_range] at hrow
  obtain ⟨i, _, rfl⟩ := hrow
  simp [singleBoard]

theorem get_singleBoard (n r₀ c₀ v : Nat) {r c : Nat} (hr : r < n) (hc : c < n) :
    get (singleBoard n r₀ c₀ v) r c = if r = r₀ ∧ c = c₀ then v else 0 :=
  get_range_map n (fun i j => if i = r₀ ∧ j = c₀ then v else 0) hr hc

theorem range_map_ite_ge (n c₀ v : Nat) (h : n ≤ c₀) :
    ((List.range n).map fun j => if j = c₀ then v else 0) = List.replicate n 0 := by
  rw [List.eq_replicate_iff]
  refine ⟨by simp, ?_⟩
  intro x hx
  obtain ⟨j, hj, rfl⟩ := List.mem_map.mp hx
  rw [List.mem_range] at hj
  rw [if_neg]
  omega

theorem range_map_ite : ∀ n c₀ v : Nat, c₀ < n →
    ((List.range n).map fun j => if j = c₀ then v else 0)
      = List.replicate c₀ 0 ++ v :: List.replicate (n - 1 - c₀) 0 := by
  intro n
  induction n with
  | zero => intro c₀ v h; omega
  | succ n ih =>
    intro c₀ v hc
    rw [List.range_succ, List.map_append]
    by_cases h : c₀ < n
    · rw [ih c₀ v h]
      have hnc : n ≠ c₀ := by omega
      have h1 : n + 1 - 1 - c₀ = (n - 1 - c₀) + 1 := by omega
      rw [h1, List.replicate_succ']
      simp [hnc]
    · have hceq : n = c₀ := by omega
      have h0 : n + 1 - 1 - c₀ = 0 := by omega
      rw [range_map_ite_ge n c₀ v (by omega)]
      simp [h0, hceq]

theorem mergePass_replicate_zero : ∀ k : Nat, mergePass (List.replicate k 0) = (List.replicate k 0, 0)
  | 0 => rfl
  | 1 => rfl
  | k + 2 => by
    rw [List.replicate_succ, List.replicate_succ]
    simp only [mergePass]
    rw [if_neg (by simp)]
    rw [show (0 : Nat) :: List.replicate k 0 = List.replicate (k + 1) 0 from
      (List.replicate_succ 0 k).symm]
    rw [mergePass_replicate_zero (k + 1)]

theorem mergePass_single (v : Nat) : ∀ m : Nat,
    mergePass (v :: List.replicate m 0) = (v :: List.replicate m 0, 0)
  | 0 => rfl
  | m + 1 => by
    rw [List.replicate_succ]
    simp only [mergePass]
    rw [if_neg (by rintro ⟨h1, h2⟩; exact h1 h2)]
    rw [show (0 : Nat) :: List.replicate m 0 = List.replicate (m + 1) 0 from
      (List.replicate_succ 0 m).symm]
    rw [mergePass_replicate_zero (m + 1)]

theorem compress_single (n c₀ v : Nat) (hv : v ≠ 0) (hc : c₀ < n) :
    compress_row_left (List.replicate c₀ 0 ++ v :: List.replicate (n - 1 - c₀) 0)
      = v :: List.replicate (n - 1) 0 := by
  unfold compress_row_left compressTo
  have hfil : (List.replicate c₀ 0 ++ v :: List.replicate (n - 1 - c₀) 0).filter
      (fun x => x != 0) = [v] := by
    simp [List.filter_append, filter_replicate_zero, List.filter_cons, hv]
  rw [hfil]
  have hlen : (List.replicate c₀ 0 ++ v :: List.replicate (n - 1 - c₀) 0).length = n := by
    simp
    omega
  rw [hlen]
  simp

theorem merge_row_left_single (n c₀ v : Nat) (hv : v ≠ 0) (hc : c₀ < n) :
    merge_row_left (List.replicate c₀ 0 ++ v :: List.replicate (n - 1 - c₀) 0)
      = (v :: List.replicate (n - 1) 0, 0) := by
  rw [merge_row_left_def, compress_single n c₀ v hv hc, mergePass_single]
  have h0 : (0 : Nat) < n := by omega
  have := compress_single n 0 v hv h0
  rw [show List.replicate 0 (0 : Nat) ++ v :: List.replicate (n - 1 - 0) 0
      = v :: List.replicate (n - 1) 0 from by simp] at this
  rw [this]

theorem merge_row_left_zeros (n : Nat) :
    merge_row_left (List.replicate n 0) = (List.replicate n 0, 0) := by
  have hcz : compress_row_left (List.replicate n 0) = List.replicate n 0 := by
    unfold compress_row_left compressTo
    rw [filter_replicate_zero]
    simp
  rw [merge_row_left_def, hcz, mergePass_replicate_zero, hcz]

theorem singleBoard_rows (n r₀ c₀ v : Nat) :
    singleBoard n r₀ c₀ v = (List.range n).map fun i =>
      if i = r₀ then ((List.range n).map fun j => if j = c₀ then v else 0)
      else List.replicate n 0 := by
  unfold singleBoard
  apply List.map_congr_left
  intro i _
  by_cases hi : i = r₀
  · simp [hi]
  · simp only [hi, if_false]
    rw [List.eq_replicate_iff]
    refine ⟨by simp, ?_⟩
    intro x hx
    obtain ⟨j, _, rfl⟩ := List.mem_map.mp hx
    rw [if_neg]
    simp

theorem rotate_cw_singleBoard (n r₀ c₀ v : Nat) (hr : r₀ < n) (_hc : c₀ < n) :
    rotate_cw (singleBoard n r₀ c₀ v) = singleBoard n c₀ (n - 1 - r₀) v := by
  have hlen : (rotate_cw (singleBoard n r₀ c₀ v)).length = (singleBoard n c₀ (n - 1 - r₀) v).length := by
    rw [rotate_cw_length, singleBoard_length, singleBoard_length]
  apply board_ext (WF_rotate_cw _) (WF_singleBoard n c₀ (n - 1 - r₀) v) hlen
  intro r hrb c hcb
  rw [rotate_cw_length, singleBoard_length] at hrb hcb
  have hrb' : r < (singleBoard n r₀ c₀ v).length := by rw [singleBoard_length]; exact hrb
  have hcb' : c < (singleBoard n r₀ c₀ v).length := by rw [singleBoard_length]; exact hcb
  rw [get_rotate_cw _ hrb' hcb', singleBoard_length]
  rw [get_singleBoard n r₀ c₀ v (by omega) hrb, get_singleBoard n c₀ (n - 1 - r₀) v hrb hcb]
  have hiff : (n - 1 - c = r₀ ∧ r = c₀) ↔ (r = c₀ ∧ c = n - 1 - r₀) := by omega
  rw [if_congr hiff rfl rfl]

theorem rotate_ccw_singleBoard (n r₀ c₀ v : Nat) (_hr : r₀ < n) (hc : c₀ < n) :
    rotate_ccw (singleBoard n r₀ c₀ v) = singleBoard n (n - 1 - c₀) r₀ v := by
  have hlen : (rotate_ccw (singleBoard n r₀ c₀ v)).length
      = (singleBoard n (n - 1 - c₀) r₀ v).length := by
    rw [rotate_ccw_length, singleBoard_length, singleBoard_length]
  apply board_ext (WF_rotate_ccw _) (WF_singleBoard n (n - 1 - c₀) r₀ v) hlen
  intro r hrb c hcb
  rw [rotate_ccw_length, singleBoard_length] at hrb hcb
  have hrb' : r < (singleBoard n r₀ c₀ v).length := by rw [singleBoard_length]; exact hrb
  have hcb' : c < (singleBoard n r₀ c₀ v).length := by rw [singleBoard_length]; exact hcb
  rw [get_rotate_ccw _ hrb' hcb', singleBoard_length]
  rw [get_singleBoard n r₀ c₀ v hcb (by omega), get_singleBoard n (n - 1 - c₀) r₀ v hrb hcb]
  have hiff : (c = r₀ ∧ n - 1 - r = c₀) ↔ (r = n - 1 - c₀ ∧ c = r₀) := by omega
  rw [if_congr hiff rfl rfl]

theorem move_left_singleBoard (n r₀ c₀ v : Nat) (hr : r₀ < n) (hc : c₀ < n) (hv : v ≠ 0) :
    move_left (singleBoard n r₀ c₀ v) = (singleBoard n r₀ 0 v, c₀ != 0, 0) := by
  have h0n : 0 < n := by omega
  have hmerge1 : merge_row_left ((List.range n).map fun j => if j = c₀ then v else 0)
      = ((List.range n).map fun j => if j = 0 then v else 0, 0) := by
    rw [range_map_ite n c₀ v hc, merge_row_left_single n c₀ v hv hc]
    rw [range_map_ite n 0 v h0n]
    simp
  have hmerge0 := merge_row_left_zeros n
  rw [move_left_eq, singleBoard_rows n r₀ c₀ v]
  refine Prod.ext ?_ (Prod.ext ?_ ?_)
  · show (((List.range n).map fun i =>
        if i = r₀ then ((List.range n).map fun j => if j = c₀ then v else 0)
        else List.replicate n 0).map fun r => (merge_row_left r).1)
      = singleBoard n r₀ 0 v
    rw [List.map_map, singleBoard_rows n r₀ 0 v]
    apply List.map_congr_left
    intro i _
    by_cases hi : i = r₀
    · subst hi
      simp [hmerge1]
    · simp [hi, hmerge0]
  · show (((List.range n).map fun i =>
        if i = r₀ then ((List.range n).map fun j => if j = c₀ then v else 0)
        else List.replicate n 0).any fun r => r != (merge_row_left r).1)
      = (c₀ != 0)
    rw [any_map_poly]
    by_cases hc0 : c₀ = 0
    · subst hc0
      rw [show ((0 : Nat) != 0) = false from rfl, Bool.eq_false_iff]
      intro hany
      obtain ⟨i, _, hbne⟩ := List.any_eq_true.mp hany
      rw [bne_iff_ne] at hbne
      apply hbne
      by_cases hi : i = r₀
      · subst hi
        simp [hmerge1]
      · simp [hi, hmerge0]
    · rw [show (c₀ != 0) = true from bne_iff_ne.mpr hc0, List.any_eq_true]
      refine ⟨r₀, List.mem_range.mpr hr, ?_⟩
      simp only [eq_self_iff_true, if_true]
      rw [bne_iff_ne, hmerge1]
      intro heq
      have hd := congrArg (fun l => l.getD 0 0) heq
      simp only at hd
      rw [getD_map_range n 0 0 _ h0n, getD_map_range n 0 0 _ h0n] at hd
      rw [if_neg (fun h => hc0 h.symm), if_pos rfl] at hd
      exact hv hd.symm
  · show ((((List.range n).map fun i =>
        if i = r₀ then ((List.range n).map fun j => if j = c₀ then v else 0)
        else List.replicate n 0).map fun r => (merge_row_left r).2)).sum = 0
    rw [List.map_map]
    apply List.sum_eq_zero
    intro x hx
    obtain ⟨i, _, rfl⟩ := List.mem_map.mp hx
    by_cases hi : i = r₀
    · subst hi
      simp [hmerge1]
    · simp [hi, hmerge0]

/-- C9: for every size n ≥ 2, a board whose single non-zero tile sits in the
top row at (0, c) is sent by `move_up` to the board with that tile at
(n-1, c) with changed = true — the implemented composition rotate_cw →
move_left → rotate_ccw slides tiles toward the last row — and symmetrically
`move_down` sends the tile at (n-1, c) to (0, c). -/
theorem move_up_sends_top_to_bottom (n c v : Nat) (hn : 2 ≤ n) (hc : c < n) (hv : v ≠ 0) :
    move_up (singleBoard n 0 c v) = (singleBoard n (n - 1) c v, true, 0) ∧
    move_down (singleBoard n (n - 1) c v) = (singleBoard n 0 c v, true, 0) := by
  have h0n : 0 < n := by omega
  have hbtrue : ((n - 1 : Nat) != 0) = true := bne_iff_ne.mpr (by omega)
  constructor
  · show (rotate_ccw (move_left (rotate_cw (singleBoard n 0 c v))).1,
      (move_left (rotate_cw (singleBoard n 0 c v))).2.1,
      (move_left (rotate_cw (singleBoard n 0 c v))).2.2) = _
    rw [rotate_cw_singleBoard n 0 c v h0n hc]
    rw [show n - 1 - 0 = n - 1 from rfl]
    rw [move_left_singleBoard n c (n - 1) v hc (by omega) hv]
    show (rotate_ccw (singleBoard n c 0 v), ((n - 1 : Nat) != 0), 0) = _
    rw [rotate_ccw_singleBoard n c 0 v hc h0n, hbtrue]
    rw [show n - 1 - 0 = n - 1 from rfl]
  · show (rotate_cw (move_left (rotate_ccw (singleBoard n (n - 1) c v))).1,
      (move_left (rotate_ccw (singleBoard n (n - 1) c v))).2.1,
      (move_left (rotate_ccw (singleBoard n (n - 1) c v))).2.2) = _
    rw [rotate_ccw_singleBoard n (n - 1) c v (by omega) hc]
    rw [move_left_singleBoard n (n - 1 - c) (n - 1) v (by omega) (by omega) hv]
    show (rotate_cw (singleBoard n (n - 1 - c) 0 v), ((n - 1 : Nat) != 0), 0) = _
    rw [rotate_cw_singleBoard n (n - 1 - c) 0 v (by omega) h0n, hbtrue]
    rw [show n - 1 - (n - 1 - c) = c from by omega]

/-- Witness for C9: on a 2×2 board, the tile at (0, 0) is sent by `move_up`
to (1, 0), and by `move_down` back to (0, 0). -/
theorem move_up_sends_top_to_bottom_witness :
    2 ≤ 2 ∧ 0 < 2 ∧ (2 : Nat) ≠ 0 ∧
      (move_up (singleBoard 2 0 0 2) = (singleBoard 2 1 0 2, true, 0) ∧
       move_down (singleBoard 2 1 0 2) = (singleBoard 2 0 0 2, true, 0)) :=
  ⟨by decide, by decide, by decide,
    move_up_sends_top_to_bottom 2 0 2 (by decide) (by decide) (by decide)⟩

example : merge_row_left [2, 2, 0, 0] = ([4, 0, 0, 0], 4) := by decide
example : merge_row_left [2, 0, 2, 0] = ([4, 0, 0, 0], 4) := by decide
example : merge_row_left [2, 2, 2, 2] = ([4, 4, 0, 0], 8) := by decide
example : merge_row_left [4, 2, 2, 0] = ([4, 4, 0, 0], 4) := by decide
example : mergeLeftSpec [4, 2, 2, 0] = ([4, 4, 0, 0], 4) := by decide
example : move_up [[2, 0], [0, 0]] = ([[0, 0], [2, 0]], true, 0) := by decide

end Game2048
